import Mathlib

/-!
Shallow embedding of `bdortch/lrucache` (`src/lrucache.go`, the complete
variant at lines 1-230 of that file, whose line numbers all cited claims
reference).

Representation choices:

* The doubly-linked recency list (`head`/`tail` pointers, `entry.prev`/
  `entry.next`) is only ever manipulated through the two primitives
  `unlink` (remove one node, fixing neighbour pointers) and `prepend`
  (insert a node at the head).  We therefore embed the list as a Lean
  `List Entry` in recency order, head (most-recently-used) first:
  `prepend e` is `e :: l`; `unlink e` is removal of the node `e`, which at
  every call site the code identifies either by the key under which the
  hash map found it (`Get`, `Put` on a present key, `Remove`, the sweep
  loop) or as the tail node (`Put` eviction), so it is embedded as
  `eraseKey` resp. `dropLast`.
* The Go map `hash map[interface{}]*entry` stores, for each key, a pointer
  to the node that (in every state the program reaches) lives in the
  recency list.  We embed the map as its key list `hash : List K`;
  dereferencing the stored pointer is embedded as looking the key up in
  the recency list (`hashGet`).  Map insert is `cons`, map delete is
  `List.erase`.
* `time.Now().Unix()` becomes an explicit `now : Int` argument to the
  operations that read the clock in the source (`Put` and the sweeper
  tick).  `Get` and `Remove` never read the clock in the source, so they
  take no `now`.
* Go pointer identity (`e != c.head`) becomes a head-key test: under the
  key-uniqueness invariant of the map, the node found for `key` is the
  head node iff the head node's key is `key`.
* `panic` in the constructors becomes `Option`: `none` models the panic.
-/

set_option autoImplicit false
set_option linter.unusedSectionVars false
set_option linter.unusedVariables false

namespace LruCache

/-- One cached entry: `type entry struct` (src lines 100-106), with the
`prev`/`next` link fields absorbed into the position of the entry in the
embedded recency list. `expireTime` is unix-time seconds; it stays at the
Go zero value `0` when TTL is disabled. -/
structure Entry (K V : Type) where
  key : K
  value : V
  expireTime : Int
  deriving Repr, DecidableEq

/-- Cache state: `type lrucache struct` (src lines 108-116).  `list` is the
recency list induced by `head`/`tail` and the node links, most recently
used first; `hash` is the key set of the Go map. The mutex is concurrency
control only and has no sequential meaning. -/
structure Cache (K V : Type) where
  capacity : Int
  ttlSeconds : Int
  stopped : Bool
  list : List (Entry K V)
  hash : List K
  deriving Repr, DecidableEq

variable {K V : Type} [DecidableEq K]

/-- The keys of a recency list, in recency order. -/
def keysOf (l : List (Entry K V)) : List K := l.map Entry.key

/-- Lookup `c.hash[key]` followed by dereferencing the stored node pointer: the Go
map yields a (non-nil) pointer exactly when `key` is in the map, and the
node it points to is the node of the recency list carrying `key`. -/
def hashGet (c : Cache K V) (key : K) : Option (Entry K V) :=
  if key ∈ c.hash then c.list.find? (fun x => decide (x.key = key)) else none

/-- Unlinking, `c.unlink(e)` (src lines 205-218), where the node `e` was identified by
its key: remove that node from the recency list. -/
def eraseKey (l : List (Entry K V)) (key : K) : List (Entry K V) :=
  l.eraseP (fun x => decide (x.key = key))

/-- Key of the head node, if any: used to embed the pointer test
`e != c.head`. -/
def headKey (c : Cache K V) : Option K := c.list.head?.map Entry.key

/-- The recency list after the in-place mutation (`e.value = value`, and
possibly `e.expireTime = ...`) of the node that the map stores for `k`:
the node with key `k` now holds the updated fields `e`, every other node
is untouched. -/
def updList (c : Cache K V) (k : K) (e : Entry K V) : List (Entry K V) :=
  c.list.map (fun x => if x.key = k then e else x)

/-- Operation `Get` (src lines 118-131).  Look the key up in the map; absent yields
nil.  Present: promote the node to the head unless it already is the head
(`if e != c.head { c.unlink(e); c.prepend(e) }`), and return its value.
Note the source performs no expiry check here. -/
def Get (c : Cache K V) (key : K) : Option V × Cache K V :=
  match hashGet c key with
  | none => (none, c)
  | some e =>
    if headKey c = some e.key then (some e.value, c)
    else (some e.value, { c with list := e :: eraseKey c.list e.key })

/-- The in-place overwrite of a present node by `Put` (src lines 138-141):
`e.value = value`, and `e.expireTime = time.Now().Unix() + c.ttlSeconds`
when TTL is enabled. -/
def updEntry (c : Cache K V) (e0 : Entry K V) (value : V) (now : Int) :
    Entry K V :=
  { e0 with value := value,
            expireTime :=
              if c.ttlSeconds > 0 then now + c.ttlSeconds else e0.expireTime }

/-- The fresh node built by `Put` for an absent key (src lines 149-152):
`expireTime` is set iff TTL is enabled, else it stays at the zero value. -/
def newEntry (c : Cache K V) (key : K) (value : V) (now : Int) : Entry K V :=
  { key := key, value := value,
    expireTime := if c.ttlSeconds > 0 then now + c.ttlSeconds else 0 }

/-- Operation `Put` (src lines 133-162).  Present key: overwrite the value in place,
refresh `expireTime` when TTL is enabled, promote to head unless already
there.  Absent key: build a fresh node, prepend it, insert the key in the
map; then if the map has grown past capacity (`len(c.hash) > c.capacity`),
unlink the tail node and delete its key from the map. -/
def Put (c : Cache K V) (key : K) (value : V) (now : Int) : Cache K V :=
  match hashGet c key with
  | some e0 =>
    let e := updEntry c e0 value now
    -- the in-place mutation of the node the map points to
    let c1 : Cache K V := { c with list := updList c key e }
    if headKey c1 = some key then c1
    else { c1 with list := e :: eraseKey c1.list key }
  | none =>
    let e := newEntry c key value now
    let c1 : Cache K V := { c with list := e :: c.list, hash := key :: c.hash }
    if (c1.hash.length : Int) > c1.capacity then
      match c1.list.getLast? with
      | some last =>
        -- `last := c.tail; c.unlink(last); delete(c.hash, last.key)`
        { c1 with list := c1.list.dropLast, hash := c1.hash.erase last.key }
      | none => c1  -- unreachable: the list was just prepended to
    else c1

/-- Operation `Remove` (src lines 164-174): absent yields nil; present unlinks the
node, deletes the key from the map and returns the stored value, with no
expiry check. -/
def Remove (c : Cache K V) (key : K) : Option V × Cache K V :=
  match hashGet c key with
  | none => (none, c)
  | some e =>
    (some e.value, { c with list := eraseKey c.list e.key, hash := c.hash.erase key })

/-- Operation `Size` (src lines 176-180): `len(c.hash)`. -/
def Size (c : Cache K V) : Nat := c.hash.length

/-- Accessor `Capacity` (src lines 182-184). -/
def Capacity (c : Cache K V) : Int := c.capacity

/-- Accessor `TTLSeconds` (src lines 186-188). -/
def TTLSeconds (c : Cache K V) : Int := c.ttlSeconds

/-- Operation `Clear` (src lines 190-196): reset head, tail and the map. -/
def Clear (c : Cache K V) : Cache K V := { c with list := [], hash := [] }

/-- Operation `Stop` (src lines 198-202): set the `stopped` flag under the lock. -/
def Stop (c : Cache K V) : Cache K V := { c with stopped := true }

/-- The sweep loop body of `pruneExpiredEntries` (src lines 87-95): walk
the recency list from the head, snapshotting the next pointer, and for
every node whose `expireTime ≤ now` unlink it and delete its key from the
map.  The walk argument is the chain snapshot; unlinking the current node
never changes the saved remainder of the chain. -/
def pruneWalk (now : Int) : List (Entry K V) → Cache K V → Cache K V
  | [], c => c
  | e :: rest, c =>
    if e.expireTime ≤ now then
      pruneWalk now rest
        { c with list := eraseKey c.list e.key, hash := c.hash.erase e.key }
    else pruneWalk now rest c

/-- One tick of the sweeper goroutine (src lines 79-96): under the lock,
if the `stopped` flag is set, record that the task must exit (second
component `true`) and touch nothing; otherwise sweep the whole recency
list. -/
def pruneTick (c : Cache K V) (now : Int) : Cache K V × Bool :=
  if c.stopped then (c, true) else (pruneWalk now c.list c, false)

/-- The empty cache built by both constructors. -/
def emptyCache (capacity ttlSeconds : Int) : Cache K V :=
  { capacity := capacity, ttlSeconds := ttlSeconds, stopped := false,
    list := [], hash := [] }

/-- Constructor `New` (src lines 40-48): panics (`none`) iff `capacity <= 0`. -/
def New (capacity : Int) : Option (Cache K V) :=
  if capacity ≤ 0 then none else some (emptyCache capacity 0)

/-- Constructor `NewWithTTL` (src lines 53-67): panics (`none`) iff `capacity <= 0` or
`ttlSeconds < 0`. -/
def NewWithTTL (capacity ttlSeconds : Int) : Option (Cache K V) :=
  if capacity ≤ 0 then none
  else if ttlSeconds < 0 then none
  else some (emptyCache capacity ttlSeconds)

/-- Structural well-formedness of a cache state (the spec's §3 invariant):
the key of every node of the recency list is in the map, every key of the
map names a node of the list, keys are unique on both sides, and the map
never holds more than `capacity` keys, which is positive. -/
structure WF (c : Cache K V) : Prop where
  capPos : 0 < c.capacity
  nodupKeys : (keysOf c.list).Nodup
  nodupHash : c.hash.Nodup
  listSub : ∀ e ∈ c.list, e.key ∈ c.hash
  hashSub : ∀ k ∈ c.hash, k ∈ keysOf c.list
  sizeLe : (c.hash.length : Int) ≤ c.capacity

/-! ### Basic lemmas about the recency-list helpers -/

@[simp]
theorem keysOf_nil : keysOf ([] : List (Entry K V)) = [] := rfl

@[simp]
theorem keysOf_cons (e : Entry K V) (l : List (Entry K V)) :
    keysOf (e :: l) = e.key :: keysOf l := rfl

@[simp]
theorem keysOf_append (l₁ l₂ : List (Entry K V)) :
    keysOf (l₁ ++ l₂) = keysOf l₁ ++ keysOf l₂ := by
  simp [keysOf]

theorem mem_keysOf {l : List (Entry K V)} {k : K} :
    k ∈ keysOf l ↔ ∃ e ∈ l, e.key = k := by
  simp [keysOf]

theorem key_mem_keysOf {l : List (Entry K V)} {e : Entry K V} (h : e ∈ l) :
    e.key ∈ keysOf l :=
  mem_keysOf.2 ⟨e, h, rfl⟩

theorem eraseKey_sublist (l : List (Entry K V)) (k : K) :
    (eraseKey l k).Sublist l :=
  List.eraseP_sublist l

theorem nodup_keysOf_sublist {l₁ l₂ : List (Entry K V)} (h : l₁.Sublist l₂)
    (hnd : (keysOf l₂).Nodup) : (keysOf l₁).Nodup :=
  (h.map Entry.key).nodup hnd

theorem eraseKey_cons (a : Entry K V) (l : List (Entry K V)) (k : K) :
    eraseKey (a :: l) k = if a.key = k then l else a :: eraseKey l k := by
  by_cases h : a.key = k
  · rw [eraseKey, List.eraseP_cons_of_pos (by simp [h]), if_pos h]
  · rw [eraseKey, List.eraseP_cons_of_neg (by simp [h]), if_neg h]
    rfl

theorem eraseKey_of_not_mem {l : List (Entry K V)} {k : K}
    (h : k ∉ keysOf l) : eraseKey l k = l :=
  List.eraseP_of_forall_not fun e he => by
    simp only [decide_eq_true_eq]
    exact fun hek => h (mem_keysOf.2 ⟨e, he, hek⟩)

theorem eraseKey_append_left {l₁ l₂ : List (Entry K V)} {k : K}
    (h : k ∉ keysOf l₁) : eraseKey (l₁ ++ l₂) k = l₁ ++ eraseKey l₂ k := by
  induction l₁ with
  | nil => rfl
  | cons a t ih =>
    have hak : a.key ≠ k := fun hk => h (by simp [hk])
    have ht : k ∉ keysOf t := fun hk => h (by simp [hk])
    simp only [List.cons_append, eraseKey_cons, if_neg hak, ih ht]

theorem length_eraseKey_of_mem {l : List (Entry K V)} {k : K}
    (h : k ∈ keysOf l) : (eraseKey l k).length + 1 = l.length := by
  obtain ⟨e, he, hk⟩ := mem_keysOf.1 h
  exact List.length_eraseP_add_one he (by simp [hk])

theorem mem_eraseKey {l : List (Entry K V)} {k : K} {x : Entry K V}
    (hnd : (keysOf l).Nodup) : x ∈ eraseKey l k ↔ x ∈ l ∧ x.key ≠ k := by
  induction l with
  | nil => simp [eraseKey]
  | cons a t ih =>
    have hnd' : (keysOf t).Nodup := (List.nodup_cons.1 hnd).2
    have hak : a.key ∉ keysOf t := (List.nodup_cons.1 hnd).1
    rw [eraseKey_cons]
    by_cases h : a.key = k
    · subst h
      rw [if_pos rfl]
      constructor
      · intro hx
        exact ⟨List.mem_cons_of_mem _ hx, fun hk => hak (hk ▸ key_mem_keysOf hx)⟩
      · rintro ⟨hx, hk⟩
        rcases List.mem_cons.1 hx with rfl | hx
        · exact absurd rfl hk
        · exact hx
    · rw [if_neg h]
      constructor
      · intro hx
        rcases List.mem_cons.1 hx with rfl | hx
        · exact ⟨List.mem_cons_self _ _, h⟩
        · obtain ⟨hx', hk⟩ := (ih hnd').1 hx
          exact ⟨List.mem_cons_of_mem _ hx', hk⟩
      · rintro ⟨hx, hk⟩
        rcases List.mem_cons.1 hx with rfl | hx
        · exact List.mem_cons_self _ _
        · exact List.mem_cons_of_mem _ ((ih hnd').2 ⟨hx, hk⟩)

theorem mem_keysOf_eraseKey {l : List (Entry K V)} {k k' : K}
    (hnd : (keysOf l).Nodup) :
    k' ∈ keysOf (eraseKey l k) ↔ k' ∈ keysOf l ∧ k' ≠ k := by
  constructor
  · intro h
    obtain ⟨e, he, hk⟩ := mem_keysOf.1 h
    obtain ⟨he', hne⟩ := (mem_eraseKey hnd).1 he
    exact ⟨mem_keysOf.2 ⟨e, he', hk⟩, hk ▸ hne⟩
  · rintro ⟨h, hne⟩
    obtain ⟨e, he, hk⟩ := mem_keysOf.1 h
    exact mem_keysOf.2 ⟨e, (mem_eraseKey hnd).2 ⟨he, hk ▸ hne⟩, hk⟩

theorem nodup_keysOf_eraseKey {l : List (Entry K V)} {k : K}
    (hnd : (keysOf l).Nodup) : (keysOf (eraseKey l k)).Nodup :=
  nodup_keysOf_sublist (eraseKey_sublist l k) hnd

/-- In a list with unique keys, an entry is determined by its key. -/
theorem entry_eq_of_key_eq {l : List (Entry K V)} {e₁ e₂ : Entry K V}
    (hnd : (keysOf l).Nodup) (h₁ : e₁ ∈ l) (h₂ : e₂ ∈ l)
    (hk : e₁.key = e₂.key) : e₁ = e₂ := by
  induction l with
  | nil => cases h₁
  | cons a t ih =>
    have hnd' : (keysOf t).Nodup := (List.nodup_cons.1 hnd).2
    have hak : a.key ∉ keysOf t := (List.nodup_cons.1 hnd).1
    rcases List.mem_cons.1 h₁ with h₁' | h₁' <;>
      rcases List.mem_cons.1 h₂ with h₂' | h₂'
    · rw [h₁', h₂']
    · exfalso
      apply hak
      have h3 : a.key = e₂.key := by rw [← h₁']; exact hk
      rw [h3]
      exact key_mem_keysOf h₂'
    · exfalso
      apply hak
      have h3 : a.key = e₁.key := by rw [← h₂']; exact hk.symm
      rw [h3]
      exact key_mem_keysOf h₁'
    · exact ih hnd' h₁' h₂'

theorem find?_key_of_mem {l : List (Entry K V)} {e : Entry K V}
    (hnd : (keysOf l).Nodup) (he : e ∈ l) :
    l.find? (fun x => decide (x.key = e.key)) = some e := by
  induction l with
  | nil => cases he
  | cons a t ih =>
    have hnd' : (keysOf t).Nodup := (List.nodup_cons.1 hnd).2
    have hak : a.key ∉ keysOf t := (List.nodup_cons.1 hnd).1
    rcases List.mem_cons.1 he with rfl | he'
    · exact List.find?_cons_of_pos _ (by simp)
    · have hne : a.key ≠ e.key := fun h => hak (h ▸ key_mem_keysOf he')
      rw [List.find?_cons_of_neg _ (by simpa using hne)]
      exact ih hnd' he'

/-! ### Characterizing `hashGet` on well-formed states -/

theorem WF.hashGet_some_iff {c : Cache K V} (wf : WF c) {k : K}
    {e : Entry K V} : hashGet c k = some e ↔ e ∈ c.list ∧ e.key = k := by
  constructor
  · intro h
    rw [hashGet] at h
    split at h
    · exact ⟨List.mem_of_find?_eq_some h, by
        have := List.find?_some h
        simpa using this⟩
    · cases h
  · rintro ⟨he, rfl⟩
    rw [hashGet, if_pos (wf.listSub e he)]
    exact find?_key_of_mem wf.nodupKeys he

theorem WF.hashGet_none_iff {c : Cache K V} (wf : WF c) {k : K} :
    hashGet c k = none ↔ k ∉ keysOf c.list := by
  constructor
  · intro h hk
    obtain ⟨e, he, rfl⟩ := mem_keysOf.1 hk
    rw [wf.hashGet_some_iff.2 ⟨he, rfl⟩] at h
    cases h
  · intro hk
    rw [hashGet]
    split
    · rename_i hmem
      exact absurd (wf.hashSub k hmem) hk
    · rfl

theorem WF.not_mem_hash_of_hashGet_none {c : Cache K V} (wf : WF c) {k : K}
    (h : hashGet c k = none) : k ∉ c.hash :=
  fun hk => (wf.hashGet_none_iff.1 h) (wf.hashSub k hk)

/-- On a well-formed state the map and the recency list have the same
cardinality (`len(c.hash) ==` list length). -/
theorem WF.hash_length_eq {c : Cache K V} (wf : WF c) :
    c.hash.length = c.list.length := by
  have hperm : c.hash.Perm (keysOf c.list) :=
    (List.perm_ext_iff_of_nodup wf.nodupHash wf.nodupKeys).2 fun k =>
      ⟨fun h => wf.hashSub k h, fun h => by
        obtain ⟨e, he, rfl⟩ := mem_keysOf.1 h
        exact wf.listSub e he⟩
  simpa [keysOf] using hperm.length_eq

/-! ### Promotion (`unlink` then `prepend` of a present node) -/

theorem promote_mem {l : List (Entry K V)} {e : Entry K V}
    (hnd : (keysOf l).Nodup) (he : e ∈ l) (x : Entry K V) :
    x ∈ e :: eraseKey l e.key ↔ x ∈ l := by
  rw [List.mem_cons, mem_eraseKey hnd]
  constructor
  · rintro (rfl | ⟨hx, _⟩)
    · exact he
    · exact hx
  · intro hx
    by_cases hk : x.key = e.key
    · exact Or.inl (entry_eq_of_key_eq hnd hx he hk)
    · exact Or.inr ⟨hx, hk⟩

theorem promote_nodup {l : List (Entry K V)} {e : Entry K V}
    (hnd : (keysOf l).Nodup) : (keysOf (e :: eraseKey l e.key)).Nodup := by
  rw [keysOf_cons, List.nodup_cons]
  exact ⟨fun h => ((mem_keysOf_eraseKey hnd).1 h).2 rfl,
    nodup_keysOf_eraseKey hnd⟩

theorem promote_length {l : List (Entry K V)} {e : Entry K V} (he : e ∈ l) :
    (e :: eraseKey l e.key).length = l.length := by
  rw [List.length_cons]
  exact length_eraseKey_of_mem (key_mem_keysOf he)

theorem wf_promote {c : Cache K V} (wf : WF c) {e : Entry K V}
    (he : e ∈ c.list) : WF { c with list := e :: eraseKey c.list e.key } := by
  refine ⟨wf.capPos, promote_nodup wf.nodupKeys, wf.nodupHash, ?_, ?_, wf.sizeLe⟩
  · intro x hx
    exact wf.listSub x ((promote_mem wf.nodupKeys he x).1 hx)
  · intro k' hk'
    obtain ⟨e', he', rfl⟩ := mem_keysOf.1 (wf.hashSub k' hk')
    exact mem_keysOf.2 ⟨e', (promote_mem wf.nodupKeys he e').2 he', rfl⟩

/-! ### `Get`: well-formedness and behavior -/

theorem wf_get {c : Cache K V} (wf : WF c) (k : K) : WF (Get c k).2 := by
  cases hg : hashGet c k with
  | none => simpa [Get, hg] using wf
  | some e =>
    obtain ⟨he, _⟩ := wf.hashGet_some_iff.1 hg
    by_cases hh : headKey c = some e.key
    · simpa [Get, hg, hh] using wf
    · simpa [Get, hg, hh] using wf_promote wf he

theorem get_absent {c : Cache K V} {k : K} (h : hashGet c k = none) :
    Get c k = (none, c) := by
  simp [Get, h]

theorem head?_eq_of_headKey {c : Cache K V} (wf : WF c) {e : Entry K V}
    (he : e ∈ c.list) (hh : headKey c = some e.key) :
    c.list.head? = some e := by
  rw [headKey] at hh
  cases hl : c.list.head? with
  | none => rw [hl] at hh; cases hh
  | some h0 =>
    rw [hl] at hh
    have hk : h0.key = e.key := by simpa using hh
    have h0mem : h0 ∈ c.list := List.mem_of_mem_head? hl
    rw [entry_eq_of_key_eq wf.nodupKeys h0mem he hk]

theorem get_present {c : Cache K V} {k : K} {e : Entry K V} (wf : WF c)
    (h : hashGet c k = some e) :
    (Get c k).1 = some e.value ∧ (Get c k).2.list.head? = some e ∧
    (Get c k).2.hash = c.hash ∧
    (∀ x, x ∈ (Get c k).2.list ↔ x ∈ c.list) ∧
    (Get c k).2.capacity = c.capacity ∧
    (Get c k).2.ttlSeconds = c.ttlSeconds ∧
    (Get c k).2.stopped = c.stopped := by
  obtain ⟨he, _⟩ := wf.hashGet_some_iff.1 h
  by_cases hh : headKey c = some e.key
  · have hhead := head?_eq_of_headKey wf he hh
    simp [Get, h, hh, hhead]
  · have h1 : (Get c k).1 = some e.value := by simp [Get, h, hh]
    have h2 : (Get c k).2 = { c with list := e :: eraseKey c.list e.key } := by
      simp [Get, h, hh]
    rw [h1, h2]
    exact ⟨rfl, rfl, rfl, fun x => promote_mem wf.nodupKeys he x, rfl, rfl, rfl⟩

/-- A `Get` of the key at the head of the recency list returns the head's
value and leaves the state entirely unchanged. -/
theorem get_of_head {c : Cache K V} (wf : WF c) {e : Entry K V}
    (h : c.list.head? = some e) : Get c e.key = (some e.value, c) := by
  have he : e ∈ c.list := List.mem_of_mem_head? h
  have hg : hashGet c e.key = some e := wf.hashGet_some_iff.2 ⟨he, rfl⟩
  have hh : headKey c = some e.key := by rw [headKey, h]; rfl
  simp [Get, hg, hh]

/-! ### `Remove`: well-formedness and behavior -/

theorem remove_absent {c : Cache K V} {k : K} (h : hashGet c k = none) :
    Remove c k = (none, c) := by
  simp [Remove, h]

theorem wf_remove {c : Cache K V} (wf : WF c) (k : K) : WF (Remove c k).2 := by
  cases hg : hashGet c k with
  | none => simpa [Remove, hg] using wf
  | some e =>
    obtain ⟨he, hek⟩ := wf.hashGet_some_iff.1 hg
    simp only [Remove, hg]
    refine ⟨wf.capPos, nodup_keysOf_eraseKey wf.nodupKeys, wf.nodupHash.erase k, ?_, ?_, ?_⟩
    · intro x hx
      obtain ⟨hx', hne⟩ := (mem_eraseKey wf.nodupKeys).1 hx
      exact (List.mem_erase_of_ne (hek ▸ hne)).2 (wf.listSub x hx')
    · intro k' hk'
      obtain ⟨hne, hk''⟩ := wf.nodupHash.mem_erase_iff.1 hk'
      obtain ⟨e', he', rfl⟩ := mem_keysOf.1 (wf.hashSub k' hk'')
      exact mem_keysOf.2 ⟨e', (mem_eraseKey wf.nodupKeys).2 ⟨he', hek ▸ hne⟩, rfl⟩
    · exact le_trans (by exact_mod_cast (List.erase_sublist k c.hash).length_le) wf.sizeLe

theorem remove_present {c : Cache K V} {k : K} {e : Entry K V} (wf : WF c)
    (h : hashGet c k = some e) :
    (Remove c k).1 = some e.value ∧
    (∀ x, x ∈ (Remove c k).2.list ↔ x ∈ c.list ∧ x.key ≠ k) ∧
    (∀ k', k' ∈ (Remove c k).2.hash ↔ k' ∈ c.hash ∧ k' ≠ k) ∧
    Size (Remove c k).2 + 1 = Size c ∧
    (Remove c k).2.capacity = c.capacity ∧
    (Remove c k).2.ttlSeconds = c.ttlSeconds ∧
    (Remove c k).2.stopped = c.stopped := by
  obtain ⟨he, hek⟩ := wf.hashGet_some_iff.1 h
  have h1 : (Remove c k).1 = some e.value := by simp [Remove, h]
  have h2 : (Remove c k).2 =
      { c with list := eraseKey c.list e.key, hash := c.hash.erase k } := by
    simp [Remove, h]
  rw [h1, h2]
  refine ⟨rfl, ?_, ?_, ?_, rfl, rfl, rfl⟩
  · intro x
    show x ∈ eraseKey c.list e.key ↔ _
    rw [hek]
    exact mem_eraseKey wf.nodupKeys
  · intro k'
    show k' ∈ c.hash.erase k ↔ _
    rw [wf.nodupHash.mem_erase_iff]
    tauto
  · show (c.hash.erase k).length + 1 = c.hash.length
    have hk : k ∈ c.hash := by
      rw [hashGet] at h
      by_contra hk
      rw [if_neg hk] at h
      cases h
    exact List.length_erase_add_one hk

/-! ### `Clear` and `Stop` -/

theorem wf_clear {c : Cache K V} (wf : WF c) : WF (Clear c) := by
  refine ⟨wf.capPos, ?_, ?_, ?_, ?_, ?_⟩ <;> simp [Clear]
  exact wf.capPos.le

theorem wf_stop {c : Cache K V} (wf : WF c) : WF (Stop c) :=
  ⟨wf.capPos, wf.nodupKeys, wf.nodupHash, wf.listSub, wf.hashSub, wf.sizeLe⟩

/-! ### `Put`: unfolding equations -/

theorem keysOf_updList {c : Cache K V} {k : K} {e : Entry K V}
    (hek : e.key = k) : keysOf (updList c k e) = keysOf c.list := by
  simp only [updList, keysOf, List.map_map]
  apply List.map_congr_left
  intro a _
  by_cases h : a.key = k
  · simp [Function.comp, h, hek]
  · simp [Function.comp, h]

theorem mem_updList_iff {c : Cache K V} {k : K} {e e0 : Entry K V}
    (he0 : e0 ∈ c.list) (h0 : e0.key = k) (x : Entry K V) :
    x ∈ updList c k e ↔ x = e ∨ (x ∈ c.list ∧ x.key ≠ k) := by
  constructor
  · intro hx
    obtain ⟨y, hy, hxy⟩ := List.mem_map.1 hx
    by_cases hyk : y.key = k
    · left
      rw [← hxy, if_pos hyk]
    · right
      rw [← hxy, if_neg hyk]
      exact ⟨hy, hyk⟩
  · rintro (rfl | ⟨hx, hxk⟩)
    · exact List.mem_map.2 ⟨e0, he0, by rw [if_pos h0]⟩
    · exact List.mem_map.2 ⟨x, hx, by rw [if_neg hxk]⟩

theorem Put_present_head {c : Cache K V} {k : K} {v : V} {now : Int}
    {e0 : Entry K V} (hg : hashGet c k = some e0)
    (hh : headKey { c with list := updList c k (updEntry c e0 v now) } = some k) :
    Put c k v now = { c with list := updList c k (updEntry c e0 v now) } := by
  simp [Put, hg, hh]

theorem Put_present_promote {c : Cache K V} {k : K} {v : V} {now : Int}
    {e0 : Entry K V} (hg : hashGet c k = some e0)
    (hh : ¬ headKey { c with list := updList c k (updEntry c e0 v now) } = some k) :
    Put c k v now = { c with
      list := updEntry c e0 v now :: eraseKey (updList c k (updEntry c e0 v now)) k } := by
  simp [Put, hg, hh]

theorem Put_absent_notfull {c : Cache K V} {k : K} {v : V} {now : Int}
    (hg : hashGet c k = none)
    (hlen : ¬ ((c.hash.length : Int) + 1 > c.capacity)) :
    Put c k v now =
      { c with list := newEntry c k v now :: c.list, hash := k :: c.hash } := by
  simp only [Put, hg]
  rw [if_neg]
  simp only [List.length_cons]
  push_cast
  omega

theorem Put_absent_full {c : Cache K V} {k : K} {v : V} {now : Int}
    (hg : hashGet c k = none)
    (hfull : (c.hash.length : Int) + 1 > c.capacity)
    {L : List (Entry K V)} {b : Entry K V} (hL : c.list = L ++ [b]) :
    Put c k v now =
      { c with list := newEntry c k v now :: L,
               hash := (k :: c.hash).erase b.key } := by
  have hlast : (newEntry c k v now :: c.list).getLast? = some b := by
    rw [hL, ← List.cons_append, List.getLast?_concat]
  have hdrop : (newEntry c k v now :: c.list).dropLast = newEntry c k v now :: L := by
    rw [hL, ← List.cons_append, List.dropLast_concat]
  simp only [Put, hg]
  rw [if_pos, hlast, hdrop]
  simp only [List.length_cons]
  push_cast
  omega

/-- On a well-formed state, the over-capacity branch of `Put` can only be
reached with a non-empty recency list, so the tail lookup never fails. -/
theorem absent_full_list_ne_nil {c : Cache K V} (wf : WF c)
    (hfull : (c.hash.length : Int) + 1 > c.capacity) : c.list ≠ [] := by
  intro h
  rw [wf.hash_length_eq, h] at hfull
  simp at hfull
  have := wf.capPos
  omega

/-! ### `Put`: well-formedness -/

theorem wf_put {c : Cache K V} (wf : WF c) (k : K) (v : V) (now : Int) :
    WF (Put c k v now) := by
  cases hg : hashGet c k with
  | some e0 =>
    obtain ⟨he0, hk0⟩ := wf.hashGet_some_iff.1 hg
    have hek : (updEntry c e0 v now).key = k := by simp [updEntry, hk0]
    have hkeys : keysOf (updList c k (updEntry c e0 v now)) = keysOf c.list :=
      keysOf_updList hek
    have wf1 : WF { c with list := updList c k (updEntry c e0 v now) } := by
      refine ⟨wf.capPos, ?_, wf.nodupHash, ?_, ?_, wf.sizeLe⟩
      · show (keysOf _).Nodup
        rw [hkeys]
        exact wf.nodupKeys
      · intro x hx
        rcases (mem_updList_iff he0 hk0 x).1 hx with rfl | ⟨hx', _⟩
        · show (updEntry c e0 v now).key ∈ c.hash
          rw [hek, ← hk0]
          exact wf.listSub e0 he0
        · exact wf.listSub x hx'
      · intro k' hk'
        show k' ∈ keysOf _
        rw [hkeys]
        exact wf.hashSub k' hk'
    by_cases hh : headKey { c with list := updList c k (updEntry c e0 v now) } = some k
    · rw [Put_present_head hg hh]
      exact wf1
    · rw [Put_present_promote hg hh]
      have hmem : updEntry c e0 v now ∈ updList c k (updEntry c e0 v now) :=
        (mem_updList_iff he0 hk0 _).2 (Or.inl rfl)
      have := wf_promote wf1 hmem
      rw [show (updEntry c e0 v now).key = k from hek] at this
      exact this
  | none =>
    have hknl : k ∉ keysOf c.list := wf.hashGet_none_iff.1 hg
    have hknh : k ∉ c.hash := wf.not_mem_hash_of_hashGet_none hg
    by_cases hfull : (c.hash.length : Int) + 1 > c.capacity
    · obtain ⟨L, b, hL⟩ : ∃ L b, c.list = L ++ [b] := by
        rcases List.eq_nil_or_concat c.list with h | ⟨L, b, h⟩
        · exact absurd h (absent_full_list_ne_nil wf hfull)
        · exact ⟨L, b, by rw [h, List.concat_eq_append]⟩
      rw [Put_absent_full hg hfull hL]
      have hbl : b ∈ c.list := by rw [hL]; simp
      have hkeysL : keysOf c.list = keysOf L ++ [b.key] := by rw [hL]; simp
      have hndL : (keysOf L).Nodup := by
        have := wf.nodupKeys
        rw [hkeysL] at this
        exact this.of_append_left
      have hbkL : b.key ∉ keysOf L := by
        have := wf.nodupKeys
        rw [hkeysL] at this
        intro hmem
        exact List.disjoint_of_nodup_append this hmem (List.mem_singleton.2 rfl)
      have hkL : k ∉ keysOf L := fun h => hknl (by rw [hkeysL]; exact List.mem_append_left _ h)
      have hbk_ne : b.key ≠ k := fun h =>
        hknl (h ▸ key_mem_keysOf hbl)
      have hbkh : b.key ∈ c.hash := wf.listSub b hbl
      have herase : (k :: c.hash).erase b.key = k :: c.hash.erase b.key :=
        List.erase_cons_tail (by simpa using hbk_ne.symm)
      rw [herase]
      refine ⟨wf.capPos, ?_, ?_, ?_, ?_, ?_⟩
      · show (keysOf (newEntry c k v now :: L)).Nodup
        rw [keysOf_cons, List.nodup_cons]
        exact ⟨by simpa [newEntry] using hkL, hndL⟩
      · show (k :: c.hash.erase b.key).Nodup
        rw [List.nodup_cons]
        exact ⟨fun h => hknh ((List.erase_sublist _ _).mem h), wf.nodupHash.erase _⟩
      · intro x hx
        rcases List.mem_cons.1 hx with rfl | hx'
        · simp [newEntry]
        · have hxc : x ∈ c.list := by rw [hL]; exact List.mem_append_left _ hx'
          have hxk : x.key ≠ b.key := fun h => hbkL (h ▸ key_mem_keysOf hx')
          exact List.mem_cons_of_mem _ ((List.mem_erase_of_ne hxk).2 (wf.listSub x hxc))
      · intro k' hk'
        rcases List.mem_cons.1 hk' with rfl | hk''
        · simp [newEntry, keysOf]
        · obtain ⟨hne, hmem⟩ := wf.nodupHash.mem_erase_iff.1 hk''
          have h2 : k' ∈ keysOf c.list := wf.hashSub k' hmem
          rw [hkeysL] at h2
          rcases List.mem_append.1 h2 with h | h
          · show k' ∈ keysOf (newEntry c k v now :: L)
            rw [keysOf_cons]
            exact List.mem_cons_of_mem _ h
          · exact absurd (List.mem_singleton.1 h) hne
      · show ((k :: c.hash.erase b.key).length : Int) ≤ c.capacity
        have hlen : (c.hash.erase b.key).length + 1 = c.hash.length :=
          List.length_erase_add_one hbkh
        have : (k :: c.hash.erase b.key).length = c.hash.length := by
          simp only [List.length_cons]
          omega
        rw [this]
        exact wf.sizeLe
    · rw [Put_absent_notfull hg hfull]
      refine ⟨wf.capPos, ?_, ?_, ?_, ?_, ?_⟩
      · show (keysOf (newEntry c k v now :: c.list)).Nodup
        rw [keysOf_cons, List.nodup_cons]
        exact ⟨by simpa [newEntry] using hknl, wf.nodupKeys⟩
      · show (k :: c.hash).Nodup
        rw [List.nodup_cons]
        exact ⟨hknh, wf.nodupHash⟩
      · intro x hx
        rcases List.mem_cons.1 hx with rfl | hx'
        · simp [newEntry]
        · exact List.mem_cons_of_mem _ (wf.listSub x hx')
      · intro k' hk'
        rcases List.mem_cons.1 hk' with rfl | hk''
        · simp [newEntry, keysOf]
        · show k' ∈ keysOf (newEntry c k v now :: c.list)
          rw [keysOf_cons]
          exact List.mem_cons_of_mem _ (wf.hashSub k' hk'')
      · show (((k :: c.hash).length : Int)) ≤ c.capacity
        simp only [List.length_cons]
        push_cast
        omega

/-! ### `Put`: behavior -/

theorem put_present_spec {c : Cache K V} {k : K} {v : V} {now : Int}
    {e0 : Entry K V} (wf : WF c) (hg : hashGet c k = some e0) :
    (Put c k v now).hash = c.hash ∧
    (Put c k v now).list.head? = some (updEntry c e0 v now) ∧
    (∀ x, x ∈ (Put c k v now).list ↔
      (x = updEntry c e0 v now ∨ (x ∈ c.list ∧ x.key ≠ k))) ∧
    (Put c k v now).capacity = c.capacity ∧
    (Put c k v now).ttlSeconds = c.ttlSeconds ∧
    (Put c k v now).stopped = c.stopped := by
  obtain ⟨he0, hk0⟩ := wf.hashGet_some_iff.1 hg
  have hek : (updEntry c e0 v now).key = k := by simp [updEntry, hk0]
  by_cases hh : headKey { c with list := updList c k (updEntry c e0 v now) } = some k
  · rw [Put_present_head hg hh]
    refine ⟨rfl, ?_, fun x => mem_updList_iff he0 hk0 x, rfl, rfl, rfl⟩
    -- the head of the updated list is the updated node
    have hhk : (updList c k (updEntry c e0 v now)).head?.map Entry.key = some k := hh
    rw [updList, List.head?_map] at hhk
    cases hl : c.list.head? with
    | none => rw [hl] at hhk; cases hhk
    | some h0 =>
      rw [hl] at hhk
      have hh0 : h0 ∈ c.list := List.mem_of_mem_head? hl
      have hk0' : h0.key = k := by
        by_cases hcase : h0.key = k
        · exact hcase
        · simp [hcase, hek] at hhk
      have : h0 = e0 := entry_eq_of_key_eq wf.nodupKeys hh0 he0 (hk0'.trans hk0.symm)
      show (updList c k (updEntry c e0 v now)).head? = _
      rw [updList, List.head?_map, hl]
      simp [this, hk0]
  · rw [Put_present_promote hg hh]
    have hndu : (keysOf (updList c k (updEntry c e0 v now))).Nodup := by
      rw [keysOf_updList hek]
      exact wf.nodupKeys
    refine ⟨rfl, rfl, ?_, rfl, rfl, rfl⟩
    intro x
    show x ∈ _ :: eraseKey (updList c k (updEntry c e0 v now)) k ↔ _
    rw [List.mem_cons, mem_eraseKey hndu]
    constructor
    · rintro (rfl | ⟨hx, hxk⟩)
      · exact Or.inl rfl
      · rcases (mem_updList_iff he0 hk0 x).1 hx with rfl | ⟨hx', _⟩
        · exact Or.inl rfl
        · exact Or.inr ⟨hx', hxk⟩
    · rintro (rfl | ⟨hx, hxk⟩)
      · exact Or.inl rfl
      · exact Or.inr ⟨(mem_updList_iff he0 hk0 x).2 (Or.inr ⟨hx, hxk⟩), hxk⟩

/-- Operation `Put` on an absent key with the cache strictly below capacity:
the new node goes to the head, the key joins the map, nothing is evicted. -/
theorem put_absent_notfull_spec {c : Cache K V} {k : K} {v : V} {now : Int}
    (wf : WF c) (hg : hashGet c k = none)
    (hroom : (c.hash.length : Int) < c.capacity) :
    (Put c k v now).list = newEntry c k v now :: c.list ∧
    (Put c k v now).hash = k :: c.hash ∧
    Size (Put c k v now) = Size c + 1 := by
  have hlen : ¬ ((c.hash.length : Int) + 1 > c.capacity) := by omega
  rw [Put_absent_notfull hg hlen]
  exact ⟨rfl, rfl, by simp [Size]⟩

/-- Operation `Put` on an absent key with the cache full: the new node goes to the head,
the tail node `b` — and only it — is evicted, and the size stays at
capacity. -/
theorem put_absent_full_spec {c : Cache K V} {k : K} {v : V} {now : Int}
    (wf : WF c) (hg : hashGet c k = none)
    (hfull : (c.hash.length : Int) = c.capacity) :
    ∃ L b, c.list = L ++ [b] ∧
      (Put c k v now).list = newEntry c k v now :: L ∧
      (∀ k', k' ∈ (Put c k v now).hash ↔
        (k' = k ∨ (k' ∈ c.hash ∧ k' ≠ b.key))) ∧
      (Size (Put c k v now) : Int) = c.capacity := by
  have hgt : (c.hash.length : Int) + 1 > c.capacity := by omega
  obtain ⟨L, b, hL⟩ : ∃ L b, c.list = L ++ [b] := by
    rcases List.eq_nil_or_concat c.list with h | ⟨L, b, h⟩
    · exact absurd h (absent_full_list_ne_nil wf hgt)
    · exact ⟨L, b, by rw [h, List.concat_eq_append]⟩
  have hbl : b ∈ c.list := by rw [hL]; simp
  have hknl : k ∉ keysOf c.list := wf.hashGet_none_iff.1 hg
  have hbk_ne : b.key ≠ k := fun h => hknl (h ▸ key_mem_keysOf hbl)
  have hbkh : b.key ∈ c.hash := wf.listSub b hbl
  have herase : (k :: c.hash).erase b.key = k :: c.hash.erase b.key :=
    List.erase_cons_tail (by simpa using hbk_ne.symm)
  rw [Put_absent_full hg hgt hL]
  refine ⟨L, b, hL, rfl, ?_, ?_⟩
  · intro k'
    show k' ∈ (k :: c.hash).erase b.key ↔ _
    rw [herase, List.mem_cons]
    constructor
    · rintro (rfl | h)
      · exact Or.inl rfl
      · obtain ⟨hne, hmem⟩ := wf.nodupHash.mem_erase_iff.1 h
        exact Or.inr ⟨hmem, hne⟩
    · rintro (rfl | ⟨hmem, hne⟩)
      · exact Or.inl rfl
      · exact Or.inr (wf.nodupHash.mem_erase_iff.2 ⟨hne, hmem⟩)
  · show (((k :: c.hash).erase b.key).length : Int) = c.capacity
    rw [herase]
    have hlen : (c.hash.erase b.key).length + 1 = c.hash.length :=
      List.length_erase_add_one hbkh
    simp only [List.length_cons]
    push_cast
    omega

/-- Operation `Put` never shrinks the cache by more than the single insertion can
require: the size afterwards is between the old size and the old size
plus one (so at most one entry is ever evicted). -/
theorem put_size_bounds {c : Cache K V} (wf : WF c) (k : K) (v : V)
    (now : Int) :
    Size c ≤ Size (Put c k v now) ∧ Size (Put c k v now) ≤ Size c + 1 := by
  cases hg : hashGet c k with
  | some e0 =>
    have h := (@put_present_spec K V _ c k v now e0 wf hg).1
    rw [Size, Size, h]
    omega
  | none =>
    by_cases hfull : (c.hash.length : Int) + 1 > c.capacity
    · have hfull' : (c.hash.length : Int) = c.capacity := le_antisymm wf.sizeLe (by omega)
      obtain ⟨L, b, _, _, _, hsize⟩ := @put_absent_full_spec K V _ c k v now wf hg hfull'
      have h2 : (Size c : Int) = c.capacity := hfull'
      omega
    · obtain ⟨_, _, hsize⟩ := @put_absent_notfull_spec K V _ c k v now wf hg (by omega)
      omega

/-! ### Flag preservation (`stopped` is never cleared) -/

theorem get_stopped (c : Cache K V) (k : K) : (Get c k).2.stopped = c.stopped := by
  cases hg : hashGet c k with
  | none => simp [Get, hg]
  | some e =>
    by_cases hh : headKey c = some e.key <;> simp [Get, hg, hh]

theorem put_stopped (c : Cache K V) (k : K) (v : V) (now : Int) :
    (Put c k v now).stopped = c.stopped := by
  cases hg : hashGet c k with
  | some e0 =>
    by_cases hh : headKey { c with list := updList c k (updEntry c e0 v now) } = some k
    · rw [Put_present_head hg hh]
    · rw [Put_present_promote hg hh]
  | none =>
    simp only [Put, hg]
    split
    · split <;> rfl
    · rfl

theorem remove_stopped (c : Cache K V) (k : K) :
    (Remove c k).2.stopped = c.stopped := by
  cases hg : hashGet c k with
  | none => simp [Remove, hg]
  | some e => simp [Remove, hg]

theorem clear_stopped (c : Cache K V) : (Clear c).stopped = c.stopped := rfl

theorem pruneWalk_stopped (now : Int) :
    ∀ (todo : List (Entry K V)) (c : Cache K V),
      (pruneWalk now todo c).stopped = c.stopped := by
  intro todo
  induction todo with
  | nil => intro c; rfl
  | cons e rest ih =>
    intro c
    by_cases hexp : e.expireTime ≤ now <;> simp [pruneWalk, hexp, ih]

theorem pruneTick_stopped (c : Cache K V) (now : Int) :
    (pruneTick c now).1.stopped = c.stopped := by
  by_cases hs : c.stopped <;> simp [pruneTick, hs, pruneWalk_stopped]

theorem put_capacity (c : Cache K V) (k : K) (v : V) (now : Int) :
    (Put c k v now).capacity = c.capacity := by
  cases hg : hashGet c k with
  | some e0 =>
    by_cases hh : headKey { c with list := updList c k (updEntry c e0 v now) } = some k
    · rw [Put_present_head hg hh]
    · rw [Put_present_promote hg hh]
  | none =>
    simp only [Put, hg]
    split
    · split <;> rfl
    · rfl

/-! ### The sweep loop -/

/-- Walking a suffix of the recency list and unlinking every expired node
removes exactly the expired nodes of that suffix, keeps both sides of the
structure consistent, and never grows the map.  `done` is the prefix of
the list already walked (all of it alive). -/
theorem pruneWalk_spec (now : Int) :
    ∀ (todo done : List (Entry K V)) (c : Cache K V),
      c.list = done ++ todo →
      (keysOf c.list).Nodup →
      c.hash.Nodup →
      (∀ e ∈ c.list, e.key ∈ c.hash) →
      (∀ k ∈ c.hash, k ∈ keysOf c.list) →
      (pruneWalk now todo c).list =
          done ++ todo.filter (fun e => decide (now < e.expireTime)) ∧
      (pruneWalk now todo c).hash.Nodup ∧
      (∀ x ∈ (pruneWalk now todo c).list, x.key ∈ (pruneWalk now todo c).hash) ∧
      (∀ k ∈ (pruneWalk now todo c).hash, k ∈ keysOf (pruneWalk now todo c).list) ∧
      (pruneWalk now todo c).hash.length ≤ c.hash.length ∧
      (pruneWalk now todo c).capacity = c.capacity ∧
      (pruneWalk now todo c).ttlSeconds = c.ttlSeconds ∧
      (pruneWalk now todo c).stopped = c.stopped := by
  intro todo
  induction todo with
  | nil =>
    intro done c hlist hnd hndh hls hhs
    refine ⟨?_, hndh, hls, hhs, le_refl _, rfl, rfl, rfl⟩
    simpa [pruneWalk] using hlist
  | cons e rest ih =>
    intro done c hlist hnd hndh hls hhs
    by_cases hexp : e.expireTime ≤ now
    · have hstep : pruneWalk now (e :: rest) c =
          pruneWalk now rest
            { c with list := eraseKey c.list e.key, hash := c.hash.erase e.key } := by
        simp [pruneWalk, hexp]
      set c' : Cache K V :=
        { c with list := eraseKey c.list e.key, hash := c.hash.erase e.key } with hc'
      have hkdone : e.key ∉ keysOf done := by
        intro hmem
        have h2 := hnd
        rw [hlist, keysOf_append] at h2
        exact List.disjoint_of_nodup_append h2 hmem (by simp)
      have hlist' : c'.list = done ++ rest := by
        show eraseKey c.list e.key = done ++ rest
        rw [hlist, eraseKey_append_left hkdone, eraseKey_cons, if_pos rfl]
      have hnd' : (keysOf c'.list).Nodup := nodup_keysOf_eraseKey hnd
      have hndh' : c'.hash.Nodup := hndh.erase _
      have hls' : ∀ x ∈ c'.list, x.key ∈ c'.hash := by
        intro x hx
        obtain ⟨hxc, hxk⟩ := (mem_eraseKey hnd).1 hx
        exact (List.mem_erase_of_ne hxk).2 (hls x hxc)
      have hhs' : ∀ k ∈ c'.hash, k ∈ keysOf c'.list := by
        intro k hk
        obtain ⟨hne, hmem⟩ := hndh.mem_erase_iff.1 hk
        exact (mem_keysOf_eraseKey hnd).2 ⟨hhs k hmem, hne⟩
      obtain ⟨h1, h2, h3, h4, h5, h6, h7, h8⟩ :=
        ih done c' hlist' hnd' hndh' hls' hhs'
      rw [hstep]
      have hfilter : (e :: rest).filter (fun x => decide (now < x.expireTime)) =
          rest.filter (fun x => decide (now < x.expireTime)) := by
        have : ¬ (now < e.expireTime) := not_lt.2 hexp
        simp [List.filter_cons, this]
      refine ⟨by rw [h1, hfilter], h2, h3, h4, ?_, by rw [h6], by rw [h7], by rw [h8]⟩
      calc (pruneWalk now rest c').hash.length
          ≤ c'.hash.length := h5
        _ ≤ c.hash.length := (List.erase_sublist _ _).length_le
    · have hstep : pruneWalk now (e :: rest) c = pruneWalk now rest c := by
        simp [pruneWalk, hexp]
      have hlist2 : c.list = (done ++ [e]) ++ rest := by rw [hlist]; simp
      obtain ⟨h1, h2, h3, h4, h5, h6, h7, h8⟩ := ih (done ++ [e]) c hlist2 hnd hndh hls hhs
      rw [hstep]
      have hfilter : (e :: rest).filter (fun x => decide (now < x.expireTime)) =
          e :: rest.filter (fun x => decide (now < x.expireTime)) := by
        have : now < e.expireTime := lt_of_not_le hexp
        simp [List.filter_cons, this]
      refine ⟨?_, h2, h3, h4, h5, h6, h7, h8⟩
      rw [h1, hfilter, List.append_assoc, List.singleton_append]

theorem wf_pruneTick {c : Cache K V} (wf : WF c) (now : Int) :
    WF (pruneTick c now).1 := by
  by_cases hs : c.stopped
  · simpa [pruneTick, hs] using wf
  · obtain ⟨h1, h2, h3, h4, h5, h6, h7, _⟩ :=
      pruneWalk_spec now c.list [] c (by simp) wf.nodupKeys wf.nodupHash
        wf.listSub wf.hashSub
    have hres : (pruneTick c now).1 = pruneWalk now c.list c := by
      simp [pruneTick, hs]
    rw [hres]
    refine ⟨by rw [h6]; exact wf.capPos, ?_, h2, h3, h4, ?_⟩
    · rw [h1, List.nil_append]
      exact nodup_keysOf_sublist (List.filter_sublist c.list) wf.nodupKeys
    · rw [h6]
      calc ((pruneWalk now c.list c).hash.length : Int)
          ≤ (c.hash.length : Int) := by exact_mod_cast h5
        _ ≤ c.capacity := wf.sizeLe

/-- With the `stopped` flag unset, one sweeper tick keeps exactly the
entries that have not yet expired, in their original relative order, and
the map keys afterwards are exactly the keys of the surviving entries. -/
theorem pruneTick_filter {c : Cache K V} (wf : WF c) (now : Int)
    (hs : c.stopped = false) :
    (pruneTick c now).1.list =
        c.list.filter (fun e => decide (now < e.expireTime)) ∧
    (∀ k, k ∈ (pruneTick c now).1.hash ↔ k ∈ keysOf (pruneTick c now).1.list) ∧
    (pruneTick c now).2 = false := by
  obtain ⟨h1, _, h3, h4, _, _, _, _⟩ :=
    pruneWalk_spec now c.list [] c (by simp) wf.nodupKeys wf.nodupHash
      wf.listSub wf.hashSub
  have hres : (pruneTick c now).1 = pruneWalk now c.list c := by
    simp [pruneTick, hs]
  have hres2 : (pruneTick c now).2 = false := by
    simp [pruneTick, hs]
  rw [hres]
  refine ⟨by rw [h1, List.nil_append], ?_, hres2⟩
  intro k
  constructor
  · intro hk
    exact h4 k hk
  · intro hk
    obtain ⟨e, he, rfl⟩ := mem_keysOf.1 hk
    exact h3 e he

/-! ### Concrete states used to exhibit the claims -/

/-- A cache made by both constructors starts empty and well-formed. -/
theorem wf_emptyCache {n t : Int} (h : 0 < n) :
    WF (emptyCache n t : Cache K V) := by
  refine ⟨h, ?_, ?_, ?_, ?_, ?_⟩
  · show (keysOf ([] : List (Entry K V))).Nodup
    simp
  · exact List.nodup_nil
  · intro e he
    cases he
  · intro j hj
    cases hj
  · show ((List.length [] : Int)) ≤ n
    simp
    omega

/-- A TTL-enabled cache (capacity 1, ttl 1) holding key 1 with value 42
whose entry expired at time 5: any current time from 5 on is past its
`expireAt`. -/
def expiredCache : Cache Int Int :=
  { capacity := 1, ttlSeconds := 1, stopped := false,
    list := [{ key := 1, value := 42, expireTime := 5 }], hash := [1] }

theorem wf_expiredCache : WF expiredCache :=
  ⟨by decide, by decide, by decide, by decide, by decide, by decide⟩

/-- A full cache (capacity 2) holding key 1 (head, most recently used)
and key 2 (tail, least recently used), TTL disabled. -/
def fullCache : Cache Int Int :=
  { capacity := 2, ttlSeconds := 0, stopped := false,
    list := [{ key := 1, value := 10, expireTime := 0 },
             { key := 2, value := 20, expireTime := 0 }],
    hash := [1, 2] }

theorem wf_fullCache : WF fullCache :=
  ⟨by decide, by decide, by decide, by decide, by decide, by decide⟩

/-- A TTL-enabled cache with one entry expired at 101 and one alive until
200, for exercising the sweeper at time 150. -/
def sweepCache : Cache Int Int :=
  { capacity := 3, ttlSeconds := 1, stopped := false,
    list := [{ key := 1, value := 10, expireTime := 101 },
             { key := 2, value := 20, expireTime := 200 }],
    hash := [1, 2] }

theorem wf_sweepCache : WF sweepCache :=
  ⟨by decide, by decide, by decide, by decide, by decide, by decide⟩

/-! ### The claims -/

/-- C1, counterexample.  The claim says that with TTL enabled and
`expireAt ≤ now`, `Get` returns absent, unlinks the entry and removes it
from the index.  At the concrete state `expiredCache` (TTL enabled, the
entry for key 1 expired at time 5, so `expireAt ≤ now` for every current
time from 5 on — and `Get` in the source consults no clock at all),
`Get 1` instead returns the stored value 42 and leaves the state — list,
index and hence `Size` — completely unchanged. -/
theorem c1_lazy_expiry_counterexample :
    TTLSeconds expiredCache = 1 ∧
    hashGet expiredCache 1 = some { key := 1, value := 42, expireTime := 5 } ∧
    ((5 : Int) ≤ 10) ∧
    (Get expiredCache 1).1 = some 42 ∧
    (Get expiredCache 1).2 = expiredCache ∧
    Size (Get expiredCache 1).2 = 1 := by
  decide

/-- C1, amended.  `Get` performs no expiry check: for every well-formed
state with TTL enabled and every present key — even one whose
`expireAt ≤ now` — `Get` returns the stored value, leaves the index
unchanged and keeps every entry in the recency list (so `Size` is
unchanged); expired entries are removed only by the background sweeper
(or an explicit `Remove`). -/
theorem c1_get_ignores_expiry (c : Cache K V) (k : K) (e : Entry K V)
    (now : Int) (wf : WF c) (httl : 0 < c.ttlSeconds)
    (hg : hashGet c k = some e) (hexp : e.expireTime ≤ now) :
    (Get c k).1 = some e.value ∧
    (Get c k).2.hash = c.hash ∧
    Size (Get c k).2 = Size c ∧
    (∀ x, x ∈ (Get c k).2.list ↔ x ∈ c.list) := by
  obtain ⟨h1, _, h3, h4, _, _, _⟩ := get_present wf hg
  exact ⟨h1, h3, by rw [Size, Size, h3], h4⟩

/-- C1, witness for the amended claim at `expiredCache`, key 1, time 10. -/
theorem c1_get_ignores_expiry_witness :
    (Get expiredCache 1).1 = some 42 ∧
    (Get expiredCache 1).2.hash = expiredCache.hash ∧
    Size (Get expiredCache 1).2 = Size expiredCache ∧
    (∀ x, x ∈ (Get expiredCache 1).2.list ↔ x ∈ expiredCache.list) :=
  @c1_get_ignores_expiry Int Int _ expiredCache 1
    { key := 1, value := 42, expireTime := 5 } 10 wf_expiredCache
    (by decide) (by decide) (by decide)

/-- C2.  On every well-formed state, `Put` leaves at most `capacity`
entries and changes the size by at most one in either direction
(`Size c ≤ Size (Put c k v now) ≤ Size c + 1`, so no `Put` ever evicts
more than one entry); and when the cache holds exactly `capacity` entries
and the key is absent, `Put` inserts the new node at the head and evicts
exactly the tail node `b` of the recency list — the least recently
touched entry, since the list is kept in recency order by the promotions
of `Get` and `Put` — leaving the size at exactly `capacity`. -/
theorem c2_put_eviction (c : Cache K V) (k : K) (v : V) (now : Int)
    (wf : WF c) :
    (Size (Put c k v now) : Int) ≤ c.capacity ∧
    Size c ≤ Size (Put c k v now) ∧
    Size (Put c k v now) ≤ Size c + 1 ∧
    (hashGet c k = none → (Size c : Int) = c.capacity →
      ∃ L b, c.list = L ++ [b] ∧
        (Put c k v now).list = newEntry c k v now :: L ∧
        (∀ j, j ∈ (Put c k v now).hash ↔ (j = k ∨ (j ∈ c.hash ∧ j ≠ b.key))) ∧
        (Size (Put c k v now) : Int) = c.capacity) := by
  refine ⟨?_, (put_size_bounds wf k v now).1,
    (put_size_bounds wf k v now).2, fun hg hfull => ?_⟩
  · have h := (wf_put wf k v now).sizeLe
    rw [put_capacity c k v now] at h
    exact h
  · exact @put_absent_full_spec K V _ c k v now wf hg hfull

/-- C2, witness: putting absent key 3 into the full `fullCache` evicts
exactly the tail (key 2) and keeps the size at capacity 2. -/
theorem c2_put_eviction_witness :
    ∃ L b, fullCache.list = L ++ [b] ∧
      (Put fullCache 3 30 100).list = newEntry fullCache 3 30 100 :: L ∧
      (∀ j, j ∈ (Put fullCache 3 30 100).hash ↔
        (j = 3 ∨ (j ∈ fullCache.hash ∧ j ≠ b.key))) ∧
      (Size (Put fullCache 3 30 100) : Int) = fullCache.capacity :=
  (c2_put_eviction fullCache 3 30 100 wf_fullCache).2.2.2 (by decide) (by decide)

/-- C3.  Every operation — `Get`, `Put`, `Remove`, `Clear`, `Stop` and a
sweeper tick — preserves the structural invariant `WF`: keys of the
recency list and keys of the index are mutually contained and duplicate
free (each side points at the other), the index never exceeds
`capacity`, and the capacity stays positive.  On a well-formed state the
list length equals the index size equals `Size`, the count is at most
`capacity`, and a non-empty list has a head and a tail node (in this
embedding of the pointer structure as a Lean list, the head is the unique
node with no predecessor and the tail the unique node with no
successor by construction). -/
theorem c3_invariant_preservation (c : Cache K V) (k : K) (v : V)
    (now : Int) (wf : WF c) :
    WF (Get c k).2 ∧ WF (Put c k v now) ∧ WF (Remove c k).2 ∧
    WF (Clear c) ∧ WF (Stop c) ∧ WF (pruneTick c now).1 ∧
    c.list.length = Size c ∧ (Size c : Int) ≤ c.capacity ∧
    (c.list ≠ [] → c.list.head?.isSome ∧ c.list.getLast?.isSome) := by
  refine ⟨wf_get wf k, wf_put wf k v now, wf_remove wf k, wf_clear wf,
    wf_stop wf, wf_pruneTick wf now, wf.hash_length_eq.symm, wf.sizeLe,
    fun hne => ⟨List.head?_isSome.2 hne, List.getLast?_isSome.2 hne⟩⟩

/-- C3, witness at the concrete full cache. -/
theorem c3_invariant_preservation_witness :
    WF (Get fullCache 1).2 ∧ WF (Put fullCache 1 30 100) ∧
    WF (Remove fullCache 1).2 ∧ WF (Clear fullCache) ∧ WF (Stop fullCache) ∧
    WF (pruneTick fullCache 100).1 ∧
    fullCache.list.length = Size fullCache ∧
    (Size fullCache : Int) ≤ fullCache.capacity ∧
    (fullCache.list ≠ [] →
      fullCache.list.head?.isSome ∧ fullCache.list.getLast?.isSome) :=
  c3_invariant_preservation fullCache 1 30 100 wf_fullCache

/-- C4.  With the `stopped` flag unset, one sweeper tick keeps exactly
the entries whose `expireAt` is still in the future — every entry with
`expireAt ≤ now` is removed, every other entry stays, in the original
relative recency order (the surviving list is a `filter` of the old one)
— and afterwards the index holds exactly the keys of the surviving
entries. -/
theorem c4_sweeper_tick (c : Cache K V) (now : Int) (wf : WF c)
    (hs : c.stopped = false) :
    (pruneTick c now).1.list =
        c.list.filter (fun e => decide (now < e.expireTime)) ∧
    (∀ j, j ∈ (pruneTick c now).1.hash ↔
        j ∈ keysOf (pruneTick c now).1.list) := by
  obtain ⟨h1, h2, _⟩ := pruneTick_filter wf now hs
  exact ⟨h1, h2⟩

/-- C4, witness: sweeping `sweepCache` at time 150 removes exactly the
entry that expired at 101 and keeps the one expiring at 200. -/
theorem c4_sweeper_tick_witness :
    (pruneTick sweepCache 150).1.list =
        sweepCache.list.filter (fun e => decide ((150 : Int) < e.expireTime)) ∧
    (∀ j, j ∈ (pruneTick sweepCache 150).1.hash ↔
        j ∈ keysOf (pruneTick sweepCache 150).1.list) :=
  c4_sweeper_tick sweepCache 150 wf_sweepCache rfl

/-- C5.  `Stop` sets the `stopped` flag and nothing else (entries and
index untouched — so on a TTL-disabled cache it is a safe no-op), it is
idempotent, a tick on a stopped cache removes nothing and reports that
the sweeper task exits, and no operation ever clears the flag — so once
`Stop` has run, every later tick finds the flag set and removes no
entry. -/
theorem c5_stop_semantics (c : Cache K V) (k : K) (v : V) (now : Int) :
    (Stop c).stopped = true ∧
    Stop (Stop c) = Stop c ∧
    (Stop c).list = c.list ∧ (Stop c).hash = c.hash ∧
    (Stop c).capacity = c.capacity ∧ (Stop c).ttlSeconds = c.ttlSeconds ∧
    pruneTick (Stop c) now = (Stop c, true) ∧
    (c.stopped = true → pruneTick c now = (c, true)) ∧
    (Get c k).2.stopped = c.stopped ∧
    (Put c k v now).stopped = c.stopped ∧
    (Remove c k).2.stopped = c.stopped ∧
    (Clear c).stopped = c.stopped ∧
    (pruneTick c now).1.stopped = c.stopped := by
  refine ⟨rfl, rfl, rfl, rfl, rfl, rfl, ?_, fun h => ?_, get_stopped c k,
    put_stopped c k v now, remove_stopped c k, clear_stopped c,
    pruneTick_stopped c now⟩
  · simp [pruneTick, Stop]
  · simp [pruneTick, h]

/-- C5, witness at the TTL-enabled `sweepCache` (its key-1 entry is
expired at time 150, yet a tick after `Stop` removes nothing). -/
theorem c5_stop_semantics_witness :
    (Stop sweepCache).stopped = true ∧
    Stop (Stop sweepCache) = Stop sweepCache ∧
    (Stop sweepCache).list = sweepCache.list ∧
    (Stop sweepCache).hash = sweepCache.hash ∧
    (Stop sweepCache).capacity = sweepCache.capacity ∧
    (Stop sweepCache).ttlSeconds = sweepCache.ttlSeconds ∧
    pruneTick (Stop sweepCache) 150 = (Stop sweepCache, true) ∧
    (sweepCache.stopped = true → pruneTick sweepCache 150 = (sweepCache, true)) ∧
    (Get sweepCache 1).2.stopped = sweepCache.stopped ∧
    (Put sweepCache 1 10 150).stopped = sweepCache.stopped ∧
    (Remove sweepCache 1).2.stopped = sweepCache.stopped ∧
    (Clear sweepCache).stopped = sweepCache.stopped ∧
    (pruneTick sweepCache 150).1.stopped = sweepCache.stopped :=
  c5_stop_semantics sweepCache 1 10 150

/-- After any `Put c k v now` on a well-formed state, the head of the
recency list is an entry with key `k` and value `v`. -/
theorem put_head (c : Cache K V) (k : K) (v : V) (now : Int) (wf : WF c) :
    ∃ e, (Put c k v now).list.head? = some e ∧ e.key = k ∧ e.value = v := by
  cases hg : hashGet c k with
  | some e0 =>
    obtain ⟨_, h2, _, _, _, _⟩ := put_present_spec wf hg
    obtain ⟨_, hk0⟩ := wf.hashGet_some_iff.1 hg
    exact ⟨updEntry c e0 v now, h2, by simp [updEntry, hk0], rfl⟩
  | none =>
    by_cases hfull : (c.hash.length : Int) + 1 > c.capacity
    · have hfull' : (c.hash.length : Int) = c.capacity :=
        le_antisymm wf.sizeLe (by omega)
      obtain ⟨L, b, hL, hlist, _, _⟩ :=
        @put_absent_full_spec K V _ c k v now wf hg hfull'
      exact ⟨newEntry c k v now, by rw [hlist]; rfl, rfl, rfl⟩
    · obtain ⟨hlist, _, _⟩ :=
        @put_absent_notfull_spec K V _ c k v now wf hg (by omega)
      exact ⟨newEntry c k v now, by rw [hlist]; rfl, rfl, rfl⟩

/-- C6.  `Remove` of a present key returns the stored value and deletes
the entry from both the recency list and the index — with no condition on
`expireTime` anywhere, so this holds in particular for an entry whose
`expireAt` has already passed: explicit removal applies no lazy-expiry
semantics. -/
theorem c6_remove_unconditional (c : Cache K V) (k : K) (e : Entry K V)
    (wf : WF c) (hg : hashGet c k = some e) :
    (Remove c k).1 = some e.value ∧
    (∀ x, x ∈ (Remove c k).2.list ↔ (x ∈ c.list ∧ x.key ≠ k)) ∧
    (∀ j, j ∈ (Remove c k).2.hash ↔ (j ∈ c.hash ∧ j ≠ k)) ∧
    Size (Remove c k).2 + 1 = Size c := by
  obtain ⟨h1, h2, h3, h4, _, _, _⟩ := remove_present wf hg
  exact ⟨h1, h2, h3, h4⟩

/-- C6, witness: removing key 1 from `expiredCache` — whose entry expired
at time 5, long before any plausible current time — still returns the
stored value 42 and empties the cache. -/
theorem c6_remove_unconditional_witness :
    (Remove expiredCache 1).1 = some 42 ∧
    (∀ x, x ∈ (Remove expiredCache 1).2.list ↔
      (x ∈ expiredCache.list ∧ x.key ≠ 1)) ∧
    (∀ j, j ∈ (Remove expiredCache 1).2.hash ↔
      (j ∈ expiredCache.hash ∧ j ≠ 1)) ∧
    Size (Remove expiredCache 1).2 + 1 = Size expiredCache :=
  @c6_remove_unconditional Int Int _ expiredCache 1
    { key := 1, value := 42, expireTime := 5 } wf_expiredCache (by decide)

/-- C7.  `Get` right after `Put c k v now` returns exactly `v` (the most
recently put value) and leaves the state unchanged — `Put` already
promoted the entry to the head — and an immediately repeated `Get`
returns the same value on the same unchanged state.  For any present key
(the source checks no expiry in `Get`, so in particular for a
non-expired one) `Get` returns the stored value, promotes the entry to
the head, and a second `Get` returns the same value leaving the whole
state (recency order, index, size) unchanged. -/
theorem c7_get_after_put (c : Cache K V) (k : K) (v : V) (now : Int)
    (wf : WF c) :
    Get (Put c k v now) k = (some v, Put c k v now) ∧
    Get (Get (Put c k v now) k).2 k = (some v, (Get (Put c k v now) k).2) ∧
    (∀ e, hashGet c k = some e →
      (Get c k).1 = some e.value ∧ (Get c k).2.list.head? = some e ∧
      Get (Get c k).2 k = (some e.value, (Get c k).2)) := by
  obtain ⟨e, hhead, hek, hev⟩ := put_head c k v now wf
  have h1 : Get (Put c k v now) k = (some v, Put c k v now) := by
    have h := get_of_head (wf_put wf k v now) hhead
    rw [hek, hev] at h
    exact h
  refine ⟨h1, ?_, ?_⟩
  · rw [h1]
    exact h1
  · intro x hg'
    obtain ⟨g1, g2, _, _, _, _, _⟩ := get_present wf hg'
    obtain ⟨_, hk'⟩ := wf.hashGet_some_iff.1 hg'
    have h := get_of_head (wf_get wf k) g2
    rw [hk'] at h
    exact ⟨g1, g2, h⟩

/-- C7, witness at `fullCache` (key 2 is the tail before the `Put`). -/
theorem c7_get_after_put_witness :
    Get (Put fullCache 2 99 100) 2 = (some 99, Put fullCache 2 99 100) ∧
    Get (Get (Put fullCache 2 99 100) 2).2 2 =
      (some 99, (Get (Put fullCache 2 99 100) 2).2) ∧
    (∀ e, hashGet fullCache 2 = some e →
      (Get fullCache 2).1 = some e.value ∧
      (Get fullCache 2).2.list.head? = some e ∧
      Get (Get fullCache 2).2 2 = (some e.value, (Get fullCache 2).2)) :=
  c7_get_after_put fullCache 2 99 100 wf_fullCache

/-- C8.  `Get` and `Remove` of a key absent from the index return the
explicit absent result (`none`, modelling Go's `nil`) and return the
state completely unchanged — in particular `Size` is unchanged. -/
theorem c8_absent_noop (c : Cache K V) (k : K) (hg : hashGet c k = none) :
    Get c k = (none, c) ∧ Remove c k = (none, c) :=
  ⟨get_absent hg, remove_absent hg⟩

/-- C8, witness: key 99 is absent from `fullCache`. -/
theorem c8_absent_noop_witness :
    Get fullCache 99 = (none, fullCache) ∧
    Remove fullCache 99 = (none, fullCache) :=
  c8_absent_noop fullCache 99 (by decide)

/-- C9.  `New` fails (panics, modelled as `none`) iff `capacity ≤ 0`;
`NewWithTTL` fails iff `capacity ≤ 0` or `ttlSeconds < 0`; for valid
arguments each returns the cache with the requested capacity and TTL, a
false `stopped` flag, and empty list and index (which is well formed). -/
theorem c9_constructor_validation (n t : Int) :
    ((New n : Option (Cache K V)) = none ↔ n ≤ 0) ∧
    ((NewWithTTL n t : Option (Cache K V)) = none ↔ (n ≤ 0 ∨ t < 0)) ∧
    (0 < n →
      (New n : Option (Cache K V)) = some (emptyCache n 0) ∧
      WF (emptyCache n 0 : Cache K V)) ∧
    (0 < n → 0 ≤ t →
      (NewWithTTL n t : Option (Cache K V)) = some (emptyCache n t) ∧
      WF (emptyCache n t : Cache K V)) ∧
    (emptyCache n t : Cache K V).capacity = n ∧
    (emptyCache n t : Cache K V).ttlSeconds = t ∧
    (emptyCache n t : Cache K V).stopped = false ∧
    (emptyCache n t : Cache K V).list = [] ∧
    (emptyCache n t : Cache K V).hash = [] := by
  refine ⟨?_, ?_, fun h => ⟨?_, wf_emptyCache h⟩, fun h h2 => ⟨?_, wf_emptyCache h⟩,
    rfl, rfl, rfl, rfl, rfl⟩
  · by_cases h : n ≤ 0 <;> simp [New, h]
  · by_cases h : n ≤ 0
    · simp [NewWithTTL, h]
    · by_cases h2 : t < 0 <;> simp [NewWithTTL, h, h2]
  · rw [New, if_neg (by omega)]
  · rw [NewWithTTL, if_neg (by omega), if_neg (by omega)]

/-- C9, witness at capacity 3, TTL 2 over `Int` keys and values. -/
theorem c9_constructor_validation_witness :
    ((New 3 : Option (Cache Int Int)) = none ↔ (3 : Int) ≤ 0) ∧
    ((NewWithTTL 3 2 : Option (Cache Int Int)) = none ↔
      ((3 : Int) ≤ 0 ∨ (2 : Int) < 0)) ∧
    ((0 : Int) < 3 →
      (New 3 : Option (Cache Int Int)) = some (emptyCache 3 0) ∧
      WF (emptyCache 3 0 : Cache Int Int)) ∧
    ((0 : Int) < 3 → (0 : Int) ≤ 2 →
      (NewWithTTL 3 2 : Option (Cache Int Int)) = some (emptyCache 3 2) ∧
      WF (emptyCache 3 2 : Cache Int Int)) ∧
    (emptyCache 3 2 : Cache Int Int).capacity = 3 ∧
    (emptyCache 3 2 : Cache Int Int).ttlSeconds = 2 ∧
    (emptyCache 3 2 : Cache Int Int).stopped = false ∧
    (emptyCache 3 2 : Cache Int Int).list = [] ∧
    (emptyCache 3 2 : Cache Int Int).hash = [] :=
  @c9_constructor_validation Int Int _ 3 2

/-- C10.  `Put` of a key already in the index overwrites that entry's
value in place (refreshing `expireAt` exactly when TTL is enabled,
otherwise keeping it), promotes the entry to the head of the recency
list, leaves the index — and hence `Size` — unchanged, and neither
removes nor evicts any other entry: the surviving entries are exactly
the old ones other than `k`, unchanged, plus the updated entry. -/
theorem c10_put_existing_frame (c : Cache K V) (k : K) (v : V) (now : Int)
    (e0 : Entry K V) (wf : WF c) (hg : hashGet c k = some e0) :
    (Put c k v now).hash = c.hash ∧
    Size (Put c k v now) = Size c ∧
    (Put c k v now).list.head? = some (updEntry c e0 v now) ∧
    (updEntry c e0 v now).key = k ∧
    (updEntry c e0 v now).value = v ∧
    (updEntry c e0 v now).expireTime =
      (if c.ttlSeconds > 0 then now + c.ttlSeconds else e0.expireTime) ∧
    (∀ x, x ∈ (Put c k v now).list ↔
      (x = updEntry c e0 v now ∨ (x ∈ c.list ∧ x.key ≠ k))) := by
  obtain ⟨h1, h2, h3, _, _, _⟩ := put_present_spec wf hg
  obtain ⟨_, hk0⟩ := wf.hashGet_some_iff.1 hg
  exact ⟨h1, by rw [Size, Size, h1], h2, by simp [updEntry, hk0], rfl, rfl, h3⟩

/-- C10, witness: overwriting present key 2 (the tail) of `fullCache`. -/
theorem c10_put_existing_frame_witness :
    (Put fullCache 2 99 100).hash = fullCache.hash ∧
    Size (Put fullCache 2 99 100) = Size fullCache ∧
    (Put fullCache 2 99 100).list.head? =
      some (updEntry fullCache { key := 2, value := 20, expireTime := 0 } 99 100) ∧
    (updEntry fullCache { key := 2, value := 20, expireTime := 0 } 99 100).key = 2 ∧
    (updEntry fullCache { key := 2, value := 20, expireTime := 0 } 99 100).value = 99 ∧
    (updEntry fullCache { key := 2, value := 20, expireTime := 0 } 99 100).expireTime =
      (if fullCache.ttlSeconds > 0 then 100 + fullCache.ttlSeconds
       else (0 : Int)) ∧
    (∀ x, x ∈ (Put fullCache 2 99 100).list ↔
      (x = updEntry fullCache { key := 2, value := 20, expireTime := 0 } 99 100 ∨
       (x ∈ fullCache.list ∧ x.key ≠ 2))) :=
  @c10_put_existing_frame Int Int _ fullCache 2 99 100
    { key := 2, value := 20, expireTime := 0 } wf_fullCache (by decide)

end LruCache
